import Mathlib

/-!
Verification of the mousetrace capture-and-persistence pipeline
(`src/mousetrace/database/db.py` and `src/mousetrace/capture/service.py`)
against its natural-language specification.

Timestamps (Python floats, seconds since epoch) are modelled as rationals;
the claims under study concern only comparison and subtraction of
timestamps, never rounding behaviour.
-/

namespace Mousetrace

/-! ## Event model

`db.py` represents events as a `kind` string plus an untyped payload tuple;
the writer dispatches on the `kind` string.  We render the dispatch as a
closed sum with one constructor per recognised kind and a catch-all
`other` constructor for unrecognised kind strings (which the drain loop
drops). The payload fields follow the INSERT column lists in
`DBWriter._run`. -/

/-- Payload of a `pointer` event: the column tuple of `pointer_events`. -/
structure PointerPayload where
  ts : ℚ
  kind : String
  x : ℚ
  y : ℚ
  extra : Option String
  bundle_id : String
  pid : Option Int
  window_num : Option Int
  session_id : Int
deriving DecidableEq, Repr

/-- Payload of a `switch` event: the column tuple of `switches`. -/
structure SwitchPayload where
  ts : ℚ
  kind : String
  from_bundle : Option String
  from_pid : Option Int
  from_window_num : Option Int
  from_window_title : Option String
  to_bundle : Option String
  to_pid : Option Int
  to_window_num : Option Int
  to_window_title : Option String
  session_id : Int
deriving DecidableEq, Repr

/-- Payload of a `key` event: the column tuple of `key_events`. -/
structure KeyPayload where
  ts : ℚ
  kind : String
  key : String
  modifiers : Option String
  bundle_id : String
  pid : Option Int
  window_num : Option Int
  session_id : Int
deriving DecidableEq, Repr

/-- Payload of an `app` event: `(bundle_id, app_name)`. -/
structure AppPayload where
  bundle_id : String
  app_name : String
deriving DecidableEq, Repr

/-- A `DBEvent` as enqueued onto the writer queue, tagged by its kind. -/
inductive DBEvent where
  | pointer (p : PointerPayload)
  | switch (p : SwitchPayload)
  | key (p : KeyPayload)
  | app (p : AppPayload)
  | other (kind : String)
deriving DecidableEq, Repr

/-! ## Durable store

Row-level model of the tables touched by the pipeline. -/

/-- Row of the `applications` dimension table (`bundle_id` is the unique key). -/
structure AppRow where
  bundle_id : String
  app_name : String
  first_seen_ts : ℚ
deriving DecidableEq, Repr

/-- Row of the `sessions` table. -/
structure SessionRow where
  id : Int
  started_at : ℚ
  ended_at : Option ℚ
deriving DecidableEq, Repr

/-- Contents of the tables written by the capture pipeline. -/
structure Store where
  sessions : List SessionRow
  applications : List AppRow
  pointer_events : List PointerPayload
  key_events : List KeyPayload
  switches : List SwitchPayload
deriving DecidableEq, Repr

/-- The empty store. -/
def Store.empty : Store := ⟨[], [], [], [], []⟩

/-- `Database.upsert_application` / the writer's `app` branch:
`INSERT INTO applications(bundle_id, app_name, first_seen_ts) VALUES (?,?,?)
ON CONFLICT(bundle_id) DO UPDATE SET app_name=excluded.app_name`.
On conflict only `app_name` is refreshed; `first_seen_ts` keeps its stored
value.  `now` is the `time.time()` value supplied for `first_seen_ts`. -/
def upsertApplication (now : ℚ) (s : Store) (bundle_id app_name : String) : Store :=
  if ∃ r ∈ s.applications, r.bundle_id = bundle_id then
    { s with applications :=
        s.applications.map (fun r =>
          if r.bundle_id = bundle_id then { r with app_name := app_name } else r) }
  else
    { s with applications := s.applications ++ [⟨bundle_id, app_name, now⟩] }

/-- `Database.close_session`:
`UPDATE sessions SET ended_at=? WHERE id=? AND ended_at IS NULL`. -/
def closeSession (now : ℚ) (session_id : Int) (s : Store) : Store :=
  { s with sessions :=
      s.sessions.map (fun r =>
        if r.id = session_id ∧ r.ended_at = none then { r with ended_at := some now } else r) }

/-! ## Batching writer (`DBWriter`)

`DBWriter._run` drains the queue and dispatches each event by kind to the
matching INSERT; unrecognised kinds fall through (dropped).  The `app`
branch calls `time.time()` for `first_seen_ts`, so `applyEvent` takes the
apply-time `now`. -/

/-- One iteration of the dispatch in `DBWriter._run`: apply one dequeued
event to the connection state. -/
def applyEvent (now : ℚ) (s : Store) : DBEvent → Store
  | .pointer p => { s with pointer_events := s.pointer_events ++ [p] }
  | .switch p => { s with switches := s.switches ++ [p] }
  | .key p => { s with key_events := s.key_events ++ [p] }
  | .app p => upsertApplication now s p.bundle_id p.app_name
  | .other _ => s

/-- Apply a queue of events in FIFO order, each with its apply-time. -/
def drainQueue (evs : List (ℚ × DBEvent)) (s : Store) : Store :=
  evs.foldl (fun acc te => applyEvent te.1 acc te.2) s

/-- The guard of the drain loop: `while self._running or not self.q.empty()`. -/
def loopContinues (running : Bool) (q : List (ℚ × DBEvent)) : Bool :=
  running || !q.isEmpty

/-- Connection state: `cur` is what the connection sees (including
uncommitted statements of the current batch), `durable` is what has been
committed. -/
structure DB where
  cur : Store
  durable : Store
deriving DecidableEq, Repr

/-- `conn.commit()`: the pending batch becomes durable. -/
def DB.commit (db : DB) : DB := { db with durable := db.cur }

/-- Clean shutdown drain: after `stop()` clears the running flag, the loop
condition degenerates to `not q.empty()`, so the remaining iterations apply
the queued events in FIFO order; the unconditional `self.conn.commit()`
after the loop then commits the result. -/
def stopFlush (evs : List (ℚ × DBEvent)) (db : DB) : DB :=
  DB.commit { db with cur := drainQueue evs db.cur }

/-- Whether an event of a recognised kind has been applied to a store:
fact events by row presence, `app` events by presence of a dimension row
for the bundle (a later upsert may have refreshed `app_name`). -/
def Store.appliedEvent (s : Store) : DBEvent → Prop
  | .pointer p => p ∈ s.pointer_events
  | .switch p => p ∈ s.switches
  | .key p => p ∈ s.key_events
  | .app p => ∃ r ∈ s.applications, r.bundle_id = p.bundle_id
  | .other _ => True

instance (s : Store) (ev : DBEvent) : Decidable (s.appliedEvent ev) := by
  cases ev <;> simp [Store.appliedEvent] <;> infer_instance

/-! ## Producers (`capture/service.py`)

`frontmost_app()` yields `(app_name, bundle_id, pid)` with empty strings
for missing data; `topmost_window()` yields an optional window record.
Each callback formats `DBEvent` values and enqueues them; `_on_key_release`
additionally performs a direct synchronous `db.upsert_application`.  A
callback's output is therefore a list of direct store upserts plus a list
of enqueued events, in emission order. -/

/-- Result of `frontmost_app()`. -/
structure Front where
  app_name : String
  bundle_id : String
  pid : Option Int
deriving DecidableEq, Repr

/-- Result of `topmost_window()` when a layer-0 window exists. -/
structure Win where
  owner_name : String
  owner_pid : Int
  title : String
  window_num : Int
deriving DecidableEq, Repr

/-- Output of one producer callback: `direct` are synchronous
`db.upsert_application` calls, `enq` are `writer.put` calls, in order. -/
structure CallbackOut where
  direct : List AppPayload
  enq : List DBEvent
deriving DecidableEq, Repr

/-- Python `app_name or bundle_id`: the fallback used for the upsert name. -/
def appNameOr (app_name bundle_id : String) : String :=
  if app_name = "" then bundle_id else app_name

/-- The `if bundle_id: writer.put(DBEvent("app", ...))` prologue shared by
the queue-based callbacks. -/
def appUpsertEvs (f : Front) : List DBEvent :=
  if f.bundle_id = "" then [] else [.app ⟨f.bundle_id, appNameOr f.app_name f.bundle_id⟩]

/-- `Collector._on_move`: the minimum-interval gate
(`if now - self._last_move_ts < self._move_interval: return`) drops the
sample without touching the gate; otherwise the gate advances to `now` and
the app upsert plus the `move` pointer event are enqueued.  Returns the
callback output and the new `_last_move_ts`. -/
def onMove (interval lastMoveTs now : ℚ) (x y : ℚ) (f : Front) (w : Option Win)
    (sid : Int) : CallbackOut × ℚ :=
  if now - lastMoveTs < interval then (⟨[], []⟩, lastMoveTs)
  else
    (⟨[], appUpsertEvs f ++
        [.pointer ⟨now, "move", x, y, none, f.bundle_id, f.pid,
          (w.map Win.window_num), sid⟩]⟩, now)

/-- `Collector._on_click`: never rate-limited. -/
def onClick (ts x y : ℚ) (button : String) (pressed : Bool) (f : Front)
    (w : Option Win) (sid : Int) : CallbackOut :=
  ⟨[], appUpsertEvs f ++
    [.pointer ⟨ts, if pressed then "click_down" else "click_up", x, y,
      some button, f.bundle_id, f.pid, (w.map Win.window_num), sid⟩]⟩

/-- `Collector._on_scroll`: never rate-limited; `extra` is the "dx,dy" string. -/
def onScroll (ts x y dx dy : ℚ) (f : Front) (w : Option Win) (sid : Int) :
    CallbackOut :=
  ⟨[], appUpsertEvs f ++
    [.pointer ⟨ts, "scroll", x, y, some (toString dx ++ "," ++ toString dy),
      f.bundle_id, f.pid, (w.map Win.window_num), sid⟩]⟩

/-- `Collector._on_key_press`: enqueues the app upsert and the `key_down` event. -/
def onKeyPress (ts : ℚ) (key_text : String) (f : Front) (w : Option Win)
    (sid : Int) : CallbackOut :=
  ⟨[], appUpsertEvs f ++
    [.key ⟨ts, "key_down", key_text, none, f.bundle_id, f.pid,
      (w.map Win.window_num), sid⟩]⟩

/-- `Collector._on_key_release`: unlike every other callback, the
application upsert here is a direct synchronous call
`self.db.upsert_application(bundle_id, app_name or bundle_id)` on the
store connection, not a `writer.put`; the `key_up` event is then enqueued. -/
def onKeyRelease (ts : ℚ) (key_text : String) (f : Front) (w : Option Win)
    (sid : Int) : CallbackOut :=
  ⟨(if f.bundle_id = "" then [] else [⟨f.bundle_id, appNameOr f.app_name f.bundle_id⟩]),
    [.key ⟨ts, "key_up", key_text, none, f.bundle_id, f.pid,
      (w.map Win.window_num), sid⟩]⟩

/-! ## Focus tracker state machine (`Collector._focus_loop`) -/

/-- `self._last_app = {"name": None, "bundle": None, "pid": None}`. -/
structure LastApp where
  name : Option String
  bundle : Option String
  pid : Option Int
deriving DecidableEq, Repr

/-- `self._last_win = {"pid": None, "window_num": None, "title": None}`. -/
structure LastWin where
  pid : Option Int
  window_num : Option Int
  title : Option String
deriving DecidableEq, Repr

/-- The initial (empty) focus state. -/
def LastApp.init : LastApp := ⟨none, none, none⟩

/-- The initial (empty) window state. -/
def LastWin.init : LastWin := ⟨none, none, none⟩

/-- The app-switch guard:
`(app_name and bundle_id) and (app_name != last["name"] or bundle_id != last["bundle"])`. -/
def appSwitchFires (la : LastApp) (f : Front) : Prop :=
  (f.app_name ≠ "" ∧ f.bundle_id ≠ "") ∧
    (some f.app_name ≠ la.name ∨ some f.bundle_id ≠ la.bundle)

instance (la : LastApp) (f : Front) : Decidable (appSwitchFires la f) := by
  unfold appSwitchFires; infer_instance

/-- The app-switch detection step of one `_focus_loop` tick: the enqueued
events (upsert prologue plus the possible `switch(kind=app)` event) and the
updated `_last_app`. -/
def focusAppStep (ts : ℚ) (f : Front) (w : Option Win) (sid : Int)
    (la : LastApp) : List DBEvent × LastApp :=
  let pro := appUpsertEvs f
  if appSwitchFires la f then
    (pro ++ [.switch ⟨ts, "app", la.bundle, la.pid, none, none,
        some f.bundle_id, f.pid, (w.map Win.window_num),
        (w.map Win.title), sid⟩],
      ⟨some f.app_name, some f.bundle_id, f.pid⟩)
  else (pro, la)

/-- The window-switch guard:
`win.get("owner_pid") != self._last_win.get("pid") or
 win.get("window_num") != self._last_win.get("window_num")`. -/
def winSwitchFires (lw : LastWin) (w : Win) : Prop :=
  some w.owner_pid ≠ lw.pid ∨ some w.window_num ≠ lw.window_num

instance (lw : LastWin) (w : Win) : Decidable (winSwitchFires lw w) := by
  unfold winSwitchFires; infer_instance

/-- The window-switch detection step of one tick.  It runs after the app
step, so `la` is the already-updated `_last_app`; `to_bundle` falls back to
it when the current bundle id is empty (`bundle_id or last_app["bundle"]`),
and likewise `to_pid` (`pid if pid is not None else last_app["pid"]`). -/
def focusWinStep (ts : ℚ) (f : Front) (w : Option Win) (sid : Int)
    (la : LastApp) (lw : LastWin) : List DBEvent × LastWin :=
  match w with
  | none => ([], lw)
  | some win =>
    if winSwitchFires lw win then
      ([.switch ⟨ts, "window", la.bundle, la.pid, lw.window_num, lw.title,
          (if f.bundle_id = "" then la.bundle else some f.bundle_id),
          (match f.pid with | some p => some p | none => la.pid),
          some win.window_num, some win.title, sid⟩],
        ⟨some win.owner_pid, some win.window_num, some win.title⟩)
    else ([], lw)

/-- One full `_focus_loop` tick body (the `try` block): app step then
window step, threading the state. -/
def focusTick (ts : ℚ) (f : Front) (w : Option Win) (sid : Int)
    (la : LastApp) (lw : LastWin) : List DBEvent × LastApp × LastWin :=
  let (evs1, la') := focusAppStep ts f w sid la
  let (evs2, lw') := focusWinStep ts f w sid la' lw
  (evs1 ++ evs2, la', lw')

/-! ## Collector runs

The mutable state a `Collector` threads through its callbacks: the two
focus-state structs and the move-gate timestamp (`self._last_move_ts = 0.0`
at construction). -/

/-- Collector callback state. -/
structure CollectorState where
  lastApp : LastApp
  lastWin : LastWin
  lastMoveTs : ℚ
deriving DecidableEq, Repr

/-- The state right after `Collector.__init__`. -/
def CollectorState.init : CollectorState := ⟨LastApp.init, LastWin.init, 0⟩

/-- One callback invocation, with the OS-sampled facts it observes. -/
inductive CbInput where
  | move (now x y : ℚ) (f : Front) (w : Option Win)
  | click (ts x y : ℚ) (button : String) (pressed : Bool) (f : Front) (w : Option Win)
  | scroll (ts x y dx dy : ℚ) (f : Front) (w : Option Win)
  | keyPress (ts : ℚ) (key_text : String) (f : Front) (w : Option Win)
  | keyRelease (ts : ℚ) (key_text : String) (f : Front) (w : Option Win)
  | tick (ts : ℚ) (f : Front) (w : Option Win)
deriving DecidableEq, Repr

/-- Dispatch one callback invocation against the collector state. -/
def collectorStep (interval : ℚ) (sid : Int) (st : CollectorState) :
    CbInput → CallbackOut × CollectorState
  | .move now x y f w =>
      let (out, ts') := onMove interval st.lastMoveTs now x y f w sid
      (out, { st with lastMoveTs := ts' })
  | .click ts x y button pressed f w => (onClick ts x y button pressed f w sid, st)
  | .scroll ts x y dx dy f w => (onScroll ts x y dx dy f w sid, st)
  | .keyPress ts key_text f w => (onKeyPress ts key_text f w sid, st)
  | .keyRelease ts key_text f w => (onKeyRelease ts key_text f w sid, st)
  | .tick ts f w =>
      let (evs, la', lw') := focusTick ts f w sid st.lastApp st.lastWin
      (⟨[], evs⟩, { st with lastApp := la', lastWin := lw' })

/-- Flatten a callback's output into a single store-bound event sequence.
The direct `db.upsert_application` of `_on_key_release` executes (and, with
the connection in autocommit, commits) at callback time — no later than the
drain of the `key_up` event enqueued right after it — so placing it just
before that event preserves the apply order relevant to dimension coverage. -/
def CallbackOut.trace (o : CallbackOut) : List DBEvent :=
  o.direct.map DBEvent.app ++ o.enq

/-- The store-bound event sequence produced by a run of callbacks. -/
def collectorTrace (interval : ℚ) (sid : Int) (st : CollectorState) :
    List CbInput → List DBEvent
  | [] => []
  | inp :: rest =>
      let (out, st') := collectorStep interval sid st inp
      out.trace ++ collectorTrace interval sid st' rest

/-! ## Shutdown sequence (`Collector._install_signals` / `_shutdown`)

`_shutdown` guards on `self._running` and, when it proceeds, runs
`writer.stop()`, `db.close_session(...)`, `db.close()`. The signal handler
sets `self._running = False`, stops the listener, calls `_shutdown()` and
exits (which fires the `atexit`-registered `_shutdown` once more). -/

/-- External actions the shutdown code can perform, in order. -/
inductive LAction where
  | stopListener
  | stopWriter
  | closeSessionAct
  | closeStoreAct
  | exitProc
deriving DecidableEq, Repr

/-- `Collector._shutdown`: `if not self._running: return` then clear the
flag and run stop-writer / close-session / close-store. -/
def shutdownRun (running : Bool) : Bool × List LAction :=
  if running = false then (running, [])
  else (false, [.stopWriter, .closeSessionAct, .closeStoreAct])

/-- The SIGINT/SIGTERM handler installed by `_install_signals`:
`self._running = False; listener.stop(); self._shutdown(); sys.exit(0)`. -/
def signalHandlerRun (_r : Bool) : Bool × List LAction :=
  let r1 : Bool := false
  let (r2, acts) := shutdownRun r1
  (r2, .stopListener :: (acts ++ [.exitProc]))

/-- The `atexit` fallback that fires after `sys.exit(0)`: `_shutdown`
again, on the flag state the handler left behind. -/
def atexitAfterSignal (running : Bool) : List LAction :=
  (shutdownRun (signalHandlerRun running).1).2

/-! ## The intake queue (`queue.Queue(maxsize=10000)`)

Bounded FIFO with a single consumer.  A `put` on a full queue blocks the
producer: the operation does not complete (state unchanged, event neither
enqueued nor lost) until a `take` frees a slot. `accepted` records the
events whose `put` has completed, in completion order. -/

/-- Operations on the intake queue. -/
inductive WOp where
  | put (ev : DBEvent)
  | take
deriving DecidableEq, Repr

/-- Queue state plus the histories needed to state FIFO delivery. -/
structure QState where
  buf : List DBEvent
  consumed : List DBEvent
  accepted : List DBEvent
deriving DecidableEq, Repr

/-- `queue.Queue(maxsize=10000)` in `DBWriter.__init__`. -/
def qCapacity : Nat := 10000

/-- One queue operation: `put` completes only below capacity (otherwise the
producer stays blocked and the state is unchanged); `take` pops the head. -/
def stepQ (cap : Nat) (s : QState) : WOp → QState
  | .put ev =>
      if s.buf.length < cap then ⟨s.buf ++ [ev], s.consumed, s.accepted ++ [ev]⟩
      else s
  | .take =>
      match s.buf with
      | [] => s
      | e :: rest => ⟨rest, s.consumed ++ [e], s.accepted⟩

/-- Run a sequence of queue operations from the empty queue. -/
def runQ (cap : Nat) (ops : List WOp) : QState :=
  ops.foldl (stepQ cap) ⟨[], [], []⟩

/-! ## Configuration (`config/capture.py`) -/

/-- The capture configuration fields relevant here; `validate()` requires
`poll_hz >= 1` and `move_hz >= 1`. -/
structure CaptureConfig where
  poll_hz : Int
  move_hz : Int
deriving DecidableEq, Repr

/-- `CaptureConfig.validate` succeeds. -/
def CaptureConfig.valid (c : CaptureConfig) : Prop :=
  1 ≤ c.poll_hz ∧ 1 ≤ c.move_hz

/-- `self._move_interval = 1.0 / float(self.cfg.move_hz)`. -/
def moveInterval (c : CaptureConfig) : ℚ := 1 / (c.move_hz : ℚ)

/-! ## Dimension coverage (claim C8)

The non-empty bundle identifiers a store-bound event references (pointer
and key rows via `bundle_id`, switch rows via `from_bundle`/`to_bundle`);
`app` events reference nothing, they populate the dimension. -/

/-- Non-empty bundle id carried by an optional switch-side field. -/
def optBundleRef : Option String → List String
  | some b => if b = "" then [] else [b]
  | none => []

/-- Non-empty bundle ids referenced by an event's fact row. -/
def bundleRefs : DBEvent → List String
  | .pointer p => if p.bundle_id = "" then [] else [p.bundle_id]
  | .key p => if p.bundle_id = "" then [] else [p.bundle_id]
  | .switch p => optBundleRef p.from_bundle ++ optBundleRef p.to_bundle
  | .app _ => []
  | .other _ => []

/-- Bundle ids upserted so far, accumulated along a trace. -/
def seenAfter (seen : List String) : List DBEvent → List String
  | [] => seen
  | .app p :: rest => seenAfter (p.bundle_id :: seen) rest
  | _ :: rest => seenAfter seen rest

/-- A trace is dimension-safe relative to the already-upserted bundles
`seen`: every event's bundle references are covered by an `app` upsert at a
strictly earlier position (or already in `seen`). -/
def goodTrace (seen : List String) : List DBEvent → Prop
  | [] => True
  | ev :: rest => (∀ b ∈ bundleRefs ev, b ∈ seen) ∧ goodTrace (seenAfter seen [ev]) rest

instance (seen : List String) (tr : List DBEvent) : Decidable (goodTrace seen tr) := by
  induction tr generalizing seen with
  | nil => exact .isTrue trivial
  | cons ev rest ih =>
    have : Decidable (goodTrace (seenAfter seen [ev]) rest) := ih _
    exact instDecidableAnd

/-- The store holds an `applications` row for bundle id `b`. -/
def Store.hasAppRow (s : Store) (b : String) : Prop :=
  ∃ r ∈ s.applications, r.bundle_id = b

instance (s : Store) (b : String) : Decidable (s.hasAppRow b) := by
  unfold Store.hasAppRow; infer_instance

/-- Every fact row's non-empty bundle references have a corresponding
`applications` row in the store. -/
def Store.dimCovered (s : Store) : Prop :=
  (∀ p ∈ s.pointer_events, ∀ b ∈ bundleRefs (.pointer p), s.hasAppRow b) ∧
  (∀ p ∈ s.key_events, ∀ b ∈ bundleRefs (.key p), s.hasAppRow b) ∧
  (∀ p ∈ s.switches, ∀ b ∈ bundleRefs (.switch p), s.hasAppRow b)

instance (s : Store) : Decidable s.dimCovered := by
  unfold Store.dimCovered; infer_instance

/-! ## Derived runs used to state the claims -/

/-- Timestamps of the move samples accepted by the rate-limiter gate over a
sequence of `_on_move` invocations (a sample is accepted exactly when the
callback enqueues something). -/
def acceptedMoves (interval : ℚ) (sid : Int) (g : ℚ) :
    List (ℚ × ℚ × ℚ × Front × Option Win) → List ℚ
  | [] => []
  | (now, x, y, f, w) :: rest =>
      let (out, g') := onMove interval g now x y f w sid
      (if out.enq.isEmpty then [] else [now]) ++ acceptedMoves interval sid g' rest

/-- Run the app-switch detection over a sequence of focus polls. -/
def runFocusApp (sid : Int) (la : LastApp) :
    List (ℚ × Front × Option Win) → List DBEvent × LastApp
  | [] => ([], la)
  | (ts, f, w) :: rest =>
      let (evs, la') := focusAppStep ts f w sid la
      let (evs2, la2) := runFocusApp sid la' rest
      (evs ++ evs2, la2)

/-- Number of `switch` events in an event list. -/
def countSwitches (evs : List DBEvent) : Nat :=
  (evs.filter (fun ev => match ev with | .switch _ => true | _ => false)).length

/-- Successive `_last_app` states along a poll sequence (initial state
included, then one state per poll). -/
def appStateTrace (sid : Int) (la : LastApp) :
    List (ℚ × Front × Option Win) → List LastApp
  | [] => [la]
  | (ts, f, w) :: rest => la :: appStateTrace sid (focusAppStep ts f w sid la).2 rest

/-- Number of strict changes of the `(app_name, bundle_id)` pair along a
state trace. -/
def pairChanges : List LastApp → Nat
  | a :: b :: rest =>
      (if (a.name, a.bundle) = (b.name, b.bundle) then 0 else 1) + pairChanges (b :: rest)
  | _ => 0

/-- Invariant tying the focus state to the set of already-upserted bundles:
whatever `_last_app` records as the current bundle is non-empty and has
been upserted. -/
def laInv (la : LastApp) (seen : List String) : Prop :=
  ∀ b, la.bundle = some b → b ≠ "" ∧ b ∈ seen

/-! ## Theorems -/

/-- C2: the claim says SIGINT/SIGTERM trigger the full shutdown sequence
(stop listeners, stop writer, close session, close store).  The code
contradicts it: the handler sets `self._running = False` before calling
`self._shutdown()`, whose `if not self._running: return` guard then fires,
so from a running collector the signal path performs only the listener
stop and the process exit — the writer is never stopped, the session never
closed, the store never closed — and the `atexit` fallback, seeing the
cleared flag, also does nothing.  By contrast `_shutdown` called with the
flag still set would perform the intended sequence, which shows the guard
is a run-once latch defeated by the handler's pre-clearing. -/
theorem sigint_shutdown_bug :
    (shutdownRun true).2 = [.stopWriter, .closeSessionAct, .closeStoreAct] ∧
    (signalHandlerRun true).2 = [.stopListener, .exitProc] ∧
    LAction.stopWriter ∉ (signalHandlerRun true).2 ∧
    LAction.closeSessionAct ∉ (signalHandlerRun true).2 ∧
    LAction.closeStoreAct ∉ (signalHandlerRun true).2 ∧
    atexitAfterSignal true = [] := by
  decide

/-- C3: the claim says no producer callback executes an insert or update
against the store directly.  Move, click, scroll and key-down callbacks
indeed only enqueue (`direct = []` for all inputs), and the focus loop
enqueues by construction, but `_on_key_release` performs a direct
synchronous `db.upsert_application` whenever the sampled bundle id is
non-empty — shown here at a concrete input — so the drain task is not the
sole writer path. -/
theorem key_release_direct_upsert_bug :
    (∀ (interval g now x y : ℚ) (f : Front) (w : Option Win) (sid : Int),
       ((onMove interval g now x y f w sid).1).direct = []) ∧
    (∀ (ts x y : ℚ) (button : String) (pressed : Bool) (f : Front) (w : Option Win)
       (sid : Int), (onClick ts x y button pressed f w sid).direct = []) ∧
    (∀ (ts x y dx dy : ℚ) (f : Front) (w : Option Win) (sid : Int),
       (onScroll ts x y dx dy f w sid).direct = []) ∧
    (∀ (ts : ℚ) (k : String) (f : Front) (w : Option Win) (sid : Int),
       (onKeyPress ts k f w sid).direct = []) ∧
    (onKeyRelease 5 "a" ⟨"Safari", "com.apple.Safari", some 7⟩ none 1).direct =
      [⟨"com.apple.Safari", "Safari"⟩] := by
  refine ⟨?_, ?_, ?_, ?_, ?_⟩
  · intro interval g now x y f w sid
    unfold onMove
    split <;> rfl
  · intro ts x y button pressed f w sid; rfl
  · intro ts x y dx dy f w sid; rfl
  · intro ts k f w sid; rfl
  · decide

/-- C7: `close_session` updates `ended_at` only for rows with the given id
that are still open, and a second call is a no-op: composing two closes
(at any two times) equals the first close alone, rows not matching the
`WHERE` clause survive unchanged, and an open row with the given id gets
`ended_at` set to the first call's timestamp. -/
theorem close_session_idempotent (t1 t2 : ℚ) (sid : Int) (s : Store) :
    closeSession t2 sid (closeSession t1 sid s) = closeSession t1 sid s ∧
    (∀ r ∈ s.sessions, ¬(r.id = sid ∧ r.ended_at = none) →
       r ∈ (closeSession t1 sid s).sessions) ∧
    (∀ r ∈ s.sessions, r.id = sid → r.ended_at = none →
       ({ r with ended_at := some t1 } : SessionRow) ∈ (closeSession t1 sid s).sessions) := by
  refine ⟨?_, ?_, ?_⟩
  · unfold closeSession
    simp only [List.map_map]
    congr 1
    refine List.map_congr_left ?_
    intro r _
    by_cases h : r.id = sid ∧ r.ended_at = none
    · simp only [Function.comp_apply, if_pos h]
      have h2 : ¬(r.id = sid ∧ (some t1 : Option ℚ) = none) := by
        rintro ⟨-, h2⟩; exact Option.some_ne_none t1 h2
      simp only [if_neg h2]
    · simp only [Function.comp_apply, if_neg h, if_neg h]
  · intro r hr hcond
    unfold closeSession
    simp only [List.mem_map]
    exact ⟨r, hr, by rw [if_neg hcond]⟩
  · intro r hr hid hend
    unfold closeSession
    simp only [List.mem_map]
    exact ⟨r, hr, by rw [if_pos ⟨hid, hend⟩]⟩

/-- C7 witness: a store with one open and one closed session; closing
session 1 twice at times 5 then 9 behaves as the theorem states. -/
theorem close_session_idempotent_witness :
    closeSession 9 1 (closeSession 5 1 ⟨[⟨1, 0, none⟩, ⟨2, 0, some 3⟩], [], [], [], []⟩) =
      closeSession 5 1 ⟨[⟨1, 0, none⟩, ⟨2, 0, some 3⟩], [], [], [], []⟩ ∧
    (⟨2, 0, some 3⟩ : SessionRow) ∈
      (closeSession 5 1 ⟨[⟨1, 0, none⟩, ⟨2, 0, some 3⟩], [], [], [], []⟩).sessions ∧
    (⟨1, 0, some 5⟩ : SessionRow) ∈
      (closeSession 5 1 ⟨[⟨1, 0, none⟩, ⟨2, 0, some 3⟩], [], [], [], []⟩).sessions := by
  obtain ⟨h1, h2, h3⟩ :=
    close_session_idempotent 5 9 1 (⟨[⟨1, 0, none⟩, ⟨2, 0, some 3⟩], [], [], [], []⟩ : Store)
  refine ⟨h1, ?_, ?_⟩
  · exact h2 ⟨2, 0, some 3⟩ (by decide) (by decide)
  · exact h3 ⟨1, 0, none⟩ (by decide) rfl rfl

/-- C6: upserting `(b, n1)` then `(b, n2)` into a store with no row for `b`
leaves exactly one `applications` row for `b`, carrying `app_name = n2` and
the `first_seen_ts` recorded by the first insert; moreover, for any store
and any upsert, every existing row keeps its `bundle_id` and
`first_seen_ts` (only `app_name` is ever refreshed). -/
theorem upsert_apps_of_not_mem (now : ℚ) (s : Store) (b n : String)
    (h : ∀ r ∈ s.applications, r.bundle_id ≠ b) :
    (upsertApplication now s b n).applications = s.applications ++ [⟨b, n, now⟩] := by
  unfold upsertApplication
  rw [if_neg (by rintro ⟨r, hr, hrb⟩; exact h r hr hrb)]

theorem upsert_apps_of_mem (now : ℚ) (s : Store) (b n : String)
    (h : ∃ r ∈ s.applications, r.bundle_id = b) :
    (upsertApplication now s b n).applications =
      s.applications.map (fun r => if r.bundle_id = b then { r with app_name := n } else r) := by
  unfold upsertApplication
  rw [if_pos h]

theorem upsert_application_idempotent (s : Store) (b n1 n2 : String) (t1 t2 : ℚ)
    (hb : ∀ r ∈ s.applications, r.bundle_id ≠ b) :
    ((upsertApplication t2 (upsertApplication t1 s b n1) b n2).applications.filter
        (fun r => r.bundle_id = b)) = [⟨b, n2, t1⟩] ∧
    (∀ (s' : Store) (b' n : String) (t : ℚ), ∀ r ∈ s'.applications,
       ∃ r' ∈ (upsertApplication t s' b' n).applications,
         r'.bundle_id = r.bundle_id ∧ r'.first_seen_ts = r.first_seen_ts) := by
  constructor
  · have e1 := upsert_apps_of_not_mem t1 s b n1 hb
    have h2 : ∃ r ∈ (upsertApplication t1 s b n1).applications, r.bundle_id = b := by
      rw [e1]
      exact ⟨⟨b, n1, t1⟩, List.mem_append_right _ (List.mem_singleton.mpr rfl), rfl⟩
    have e2 := upsert_apps_of_mem t2 (upsertApplication t1 s b n1) b n2 h2
    rw [e2, e1, List.map_append, List.filter_append]
    have e3 : s.applications.map
        (fun r => if r.bundle_id = b then { r with app_name := n2 } else r) =
        s.applications := by
      have h := List.map_congr_left
        (f := fun r : AppRow => if r.bundle_id = b then { r with app_name := n2 } else r)
        (g := fun r : AppRow => r) (l := s.applications) (fun r hr => if_neg (hb r hr))
      simpa using h
    rw [e3]
    have e4 : s.applications.filter (fun r => r.bundle_id = b) = [] := by
      rw [List.filter_eq_nil_iff]
      intro r hr
      simpa using hb r hr
    rw [e4]
    simp
  · intro s' b' n t r hr
    by_cases hex : ∃ x ∈ s'.applications, x.bundle_id = b'
    · rw [upsert_apps_of_mem t s' b' n hex]
      refine ⟨if r.bundle_id = b' then { r with app_name := n } else r,
        List.mem_map.mpr ⟨r, hr, rfl⟩, ?_⟩
      by_cases hrb : r.bundle_id = b'
      · rw [if_pos hrb]
        exact ⟨rfl, rfl⟩
      · rw [if_neg hrb]
        exact ⟨rfl, rfl⟩
    · rw [upsert_apps_of_not_mem t s' b' n (fun x hx hxb => hex ⟨x, hx, hxb⟩)]
      exact ⟨r, List.mem_append_left _ hr, rfl, rfl⟩

/-- C6 witness: the spec's own scenario — insert `("com.x", "X")` at time 1
then `("com.x", "X2")` at time 2 into the empty store: exactly one row for
`"com.x"`, named `"X2"`, with `first_seen_ts = 1`, and an already-present
row of a different bundle keeps its `first_seen_ts`. -/
theorem upsert_application_idempotent_witness :
    ((upsertApplication 2 (upsertApplication 1 Store.empty "com.x" "X") "com.x" "X2").applications.filter
        (fun r => r.bundle_id = "com.x")) = [⟨"com.x", "X2", 1⟩] ∧
    ∃ r' ∈ (upsertApplication 7 ⟨[], [⟨"com.y", "Y", 3⟩], [], [], []⟩ "com.y" "Y2").applications,
      r'.bundle_id = "com.y" ∧ r'.first_seen_ts = 3 := by
  obtain ⟨h1, h2⟩ :=
    upsert_application_idempotent Store.empty "com.x" "X" "X2" 1 2 (by decide)
  exact ⟨h1, h2 ⟨[], [⟨"com.y", "Y", 3⟩], [], [], []⟩ "com.y" "Y2" 7 ⟨"com.y", "Y", 3⟩ (by decide)⟩

/-- C10 counterexample: the claim says the first move sample is accepted
for any positive current time regardless of `move_hz`, because the gate is
initialised to `0.0`.  With `move_hz = 1` (interval `1`) and current time
`1/2 > 0`, the check `now - 0.0 < interval` fires and the first sample is
dropped with the gate unchanged. -/
theorem first_move_dropped_counterexample :
    (0 : ℚ) < 1/2 ∧ moveInterval ⟨10, 1⟩ = 1 ∧
    onMove (moveInterval ⟨10, 1⟩) 0 (1/2) 3 4 ⟨"Safari", "com.apple.Safari", some 7⟩ none 1 =
      (⟨[], []⟩, 0) := by
  refine ⟨by norm_num, by norm_num [moveInterval], ?_⟩
  unfold onMove moveInterval
  rw [if_pos (by norm_num)]

/-- C10 (amended): with `_last_move_ts` initialised to `0.0`, the first
move sample is accepted whenever its timestamp is at least `1/move_hz`; in
particular, for any configuration passing `validate()` (`move_hz >= 1`)
and any timestamp of at least one second — every real epoch timestamp —
the first sample is accepted and the gate advances to it. -/
theorem first_move_accepted (c : CaptureConfig) (now x y : ℚ) (f : Front)
    (w : Option Win) (sid : Int) (hc : c.valid) (hnow : 1 ≤ now) :
    (onMove (moveInterval c) 0 now x y f w sid).2 = now ∧
    DBEvent.pointer ⟨now, "move", x, y, none, f.bundle_id, f.pid, w.map Win.window_num, sid⟩ ∈
      (onMove (moveInterval c) 0 now x y f w sid).1.enq := by
  have hhz : (1 : ℚ) ≤ (c.move_hz : ℚ) := by exact_mod_cast hc.2
  have hint : moveInterval c ≤ 1 := by
    unfold moveInterval
    rw [div_le_one (by linarith)]
    exact hhz
  have hacc : ¬ (now - 0 < moveInterval c) := by
    rw [not_lt, sub_zero]
    exact hint.trans hnow
  unfold onMove
  rw [if_neg hacc]
  exact ⟨rfl, List.mem_append_right _ (List.mem_singleton.mpr rfl)⟩

/-- C10 witness: default configuration (`move_hz = 30`), first sample at
time 2. -/
theorem first_move_accepted_witness :
    (onMove (moveInterval ⟨10, 30⟩) 0 2 3 4 ⟨"Safari", "com.apple.Safari", some 7⟩ none 1).2 = 2 ∧
    DBEvent.pointer ⟨2, "move", 3, 4, none, "com.apple.Safari", some 7, none, 1⟩ ∈
      (onMove (moveInterval ⟨10, 30⟩) 0 2 3 4 ⟨"Safari", "com.apple.Safari", some 7⟩ none 1).1.enq :=
  first_move_accepted ⟨10, 30⟩ 2 3 4 ⟨"Safari", "com.apple.Safari", some 7⟩ none 1
    (by constructor <;> norm_num) (by norm_num)

theorem onMove_dropped {interval g now : ℚ} (x y : ℚ) (f : Front) (w : Option Win)
    (sid : Int) (h : now - g < interval) :
    onMove interval g now x y f w sid = (⟨[], []⟩, g) := by
  unfold onMove
  rw [if_pos h]

theorem onMove_accepted {interval g now : ℚ} (x y : ℚ) (f : Front) (w : Option Win)
    (sid : Int) (h : ¬ now - g < interval) :
    onMove interval g now x y f w sid =
      (⟨[], appUpsertEvs f ++ [.pointer ⟨now, "move", x, y, none, f.bundle_id, f.pid,
          w.map Win.window_num, sid⟩]⟩, now) := by
  unfold onMove
  rw [if_neg h]

theorem isEmpty_append_singleton (l : List DBEvent) (a : DBEvent) :
    (l ++ [a]).isEmpty = false := by
  cases l <;> rfl

theorem acceptedMoves_sep (interval : ℚ) (sid : Int) (hint : 0 ≤ interval) :
    ∀ (samples : List (ℚ × ℚ × ℚ × Front × Option Win)) (g : ℚ),
      (acceptedMoves interval sid g samples).Pairwise (fun a c => a + interval ≤ c) ∧
      ∀ a ∈ acceptedMoves interval sid g samples, g + interval ≤ a := by
  intro samples
  induction samples with
  | nil =>
    intro g
    exact ⟨List.Pairwise.nil, by intro a ha; simp [acceptedMoves] at ha⟩
  | cons p rest ih =>
    intro g
    obtain ⟨now, x, y, f, w⟩ := p
    by_cases h : now - g < interval
    · have e : acceptedMoves interval sid g ((now, x, y, f, w) :: rest) =
          acceptedMoves interval sid g rest := by
        simp [acceptedMoves, onMove_dropped x y f w sid h]
      rw [e]
      exact ih g
    · have e : acceptedMoves interval sid g ((now, x, y, f, w) :: rest) =
          now :: acceptedMoves interval sid now rest := by
        simp [acceptedMoves, onMove_accepted x y f w sid h, isEmpty_append_singleton]
      rw [e]
      obtain ⟨hpw, hlb⟩ := ih now
      have hgn : g + interval ≤ now := by
        rw [not_lt] at h
        linarith
      refine ⟨List.pairwise_cons.mpr ⟨hlb, hpw⟩, ?_⟩
      intro a ha
      rcases List.mem_cons.mp ha with rfl | ha
      · exact hgn
      · have := hlb a ha
        linarith

/-- C5: the minimum-interval gate of `_on_move` drops a sample arriving
sooner than the interval `1/move_hz` after the previously accepted one
without updating the gate; over any sequence of move samples, any two
accepted timestamps (not only consecutive ones) are at least the interval
apart; and the click, scroll, key-down and key-up callbacks enqueue their
event unconditionally — the limiter never drops them. -/
theorem move_rate_limited_others_never (c : CaptureConfig) (sid : Int) (hc : c.valid) :
    (∀ (g now x y : ℚ) (f : Front) (w : Option Win), now - g < moveInterval c →
       onMove (moveInterval c) g now x y f w sid = (⟨[], []⟩, g)) ∧
    (∀ (samples : List (ℚ × ℚ × ℚ × Front × Option Win)) (g : ℚ),
       (acceptedMoves (moveInterval c) sid g samples).Pairwise
         (fun a b => a + moveInterval c ≤ b)) ∧
    (∀ (ts x y : ℚ) (button : String) (pressed : Bool) (f : Front) (w : Option Win),
       DBEvent.pointer ⟨ts, if pressed then "click_down" else "click_up", x, y, some button,
           f.bundle_id, f.pid, w.map Win.window_num, sid⟩ ∈
         (onClick ts x y button pressed f w sid).enq) ∧
    (∀ (ts x y dx dy : ℚ) (f : Front) (w : Option Win),
       DBEvent.pointer ⟨ts, "scroll", x, y, some (toString dx ++ "," ++ toString dy),
           f.bundle_id, f.pid, w.map Win.window_num, sid⟩ ∈
         (onScroll ts x y dx dy f w sid).enq) ∧
    (∀ (ts : ℚ) (k : String) (f : Front) (w : Option Win),
       DBEvent.key ⟨ts, "key_down", k, none, f.bundle_id, f.pid, w.map Win.window_num, sid⟩ ∈
         (onKeyPress ts k f w sid).enq) ∧
    (∀ (ts : ℚ) (k : String) (f : Front) (w : Option Win),
       DBEvent.key ⟨ts, "key_up", k, none, f.bundle_id, f.pid, w.map Win.window_num, sid⟩ ∈
         (onKeyRelease ts k f w sid).enq) := by
  have hint : 0 ≤ moveInterval c := by
    have hhz : (0 : ℚ) < (c.move_hz : ℚ) := by
      have := hc.2
      exact_mod_cast lt_of_lt_of_le Int.zero_lt_one this
    unfold moveInterval
    positivity
  refine ⟨?_, ?_, ?_, ?_, ?_, ?_⟩
  · intro g now x y f w h
    exact onMove_dropped x y f w sid h
  · intro samples g
    exact (acceptedMoves_sep (moveInterval c) sid hint samples g).1
  · intro ts x y button pressed f w
    exact List.mem_append_right _ (List.mem_singleton.mpr rfl)
  · intro ts x y dx dy f w
    exact List.mem_append_right _ (List.mem_singleton.mpr rfl)
  · intro ts k f w
    exact List.mem_append_right _ (List.mem_singleton.mpr rfl)
  · intro ts k f w
    exact List.mem_singleton.mpr rfl

/-- C5 witness: default configuration; two samples 1/60 s apart — the
second is dropped and the accepted list is interval-separated; a click at
an arbitrary time is always enqueued. -/
theorem move_rate_limited_others_never_witness :
    CaptureConfig.valid ⟨10, 30⟩ ∧
    (acceptedMoves (moveInterval ⟨10, 30⟩) 1 0
        [(2, 3, 4, ⟨"S", "c", some 7⟩, none), (2 + 1/60, 3, 4, ⟨"S", "c", some 7⟩, none)]).Pairwise
      (fun a b => a + moveInterval ⟨10, 30⟩ ≤ b) ∧
    DBEvent.pointer ⟨5, "click_down", 3, 4, some "Button.left", "c", some 7, none, 1⟩ ∈
      (onClick 5 3 4 "Button.left" true ⟨"S", "c", some 7⟩ none 1).enq := by
  have hv : CaptureConfig.valid ⟨10, 30⟩ := by constructor <;> norm_num
  obtain ⟨-, h2, h3, -, -, -⟩ := move_rate_limited_others_never ⟨10, 30⟩ 1 hv
  exact ⟨hv, h2 _ 0, h3 5 3 4 "Button.left" true ⟨"S", "c", some 7⟩ none⟩

theorem focusAppStep_fires (ts : ℚ) (f : Front) (w : Option Win) (sid : Int)
    (la : LastApp) (h : appSwitchFires la f) :
    focusAppStep ts f w sid la =
      (appUpsertEvs f ++ [.switch ⟨ts, "app", la.bundle, la.pid, none, none,
          some f.bundle_id, f.pid, w.map Win.window_num, w.map Win.title, sid⟩],
        ⟨some f.app_name, some f.bundle_id, f.pid⟩) := by
  unfold focusAppStep
  rw [if_pos h]

theorem focusAppStep_quiet (ts : ℚ) (f : Front) (w : Option Win) (sid : Int)
    (la : LastApp) (h : ¬ appSwitchFires la f) :
    focusAppStep ts f w sid la = (appUpsertEvs f, la) := by
  unfold focusAppStep
  rw [if_neg h]

theorem countSwitches_append (a b : List DBEvent) :
    countSwitches (a ++ b) = countSwitches a + countSwitches b := by
  simp [countSwitches, List.filter_append]

theorem countSwitches_appUpsertEvs (f : Front) : countSwitches (appUpsertEvs f) = 0 := by
  unfold appUpsertEvs
  split <;> rfl

theorem switch_not_mem_appUpsertEvs (f : Front) (p : SwitchPayload) :
    DBEvent.switch p ∉ appUpsertEvs f := by
  unfold appUpsertEvs
  split
  · simp
  · simp

theorem appStateTrace_cons_shape (sid : Int) (la : LastApp)
    (polls : List (ℚ × Front × Option Win)) :
    ∃ t, appStateTrace sid la polls = la :: t := by
  cases polls with
  | nil => exact ⟨[], rfl⟩
  | cons p rest =>
    obtain ⟨ts, f, w⟩ := p
    exact ⟨_, rfl⟩

/-- C4: one poll of the focus tracker emits the `switch(kind=app)` event
(carrying the previous state as `from_*`, the current one as `to_*`) if
and only if the observed `(app_name, bundle_id)` pair is non-empty in both
components and differs from the stored `last_app`; in that case `last_app`
is updated to the observed state, otherwise the poll emits no switch event
and leaves the state unchanged; and over any poll sequence, the number of
emitted app-switch events equals the number of strict changes of the
`(name, bundle)` state pair. -/
theorem app_switch_iff_state_change (sid : Int) :
    (∀ (ts : ℚ) (f : Front) (w : Option Win) (la : LastApp),
       (appSwitchFires la f ↔
         (f.app_name ≠ "" ∧ f.bundle_id ≠ "") ∧
           (some f.app_name ≠ la.name ∨ some f.bundle_id ≠ la.bundle)) ∧
       (DBEvent.switch ⟨ts, "app", la.bundle, la.pid, none, none, some f.bundle_id, f.pid,
           w.map Win.window_num, w.map Win.title, sid⟩ ∈ (focusAppStep ts f w sid la).1 ↔
         appSwitchFires la f) ∧
       (appSwitchFires la f →
         (focusAppStep ts f w sid la).2 = ⟨some f.app_name, some f.bundle_id, f.pid⟩) ∧
       (¬ appSwitchFires la f →
         (focusAppStep ts f w sid la).2 = la ∧
           countSwitches (focusAppStep ts f w sid la).1 = 0)) ∧
    (∀ (polls : List (ℚ × Front × Option Win)) (la : LastApp),
       countSwitches (runFocusApp sid la polls).1 = pairChanges (appStateTrace sid la polls)) := by
  constructor
  · intro ts f w la
    refine ⟨Iff.rfl, ?_, ?_, ?_⟩
    · constructor
      · intro hmem
        by_contra h
        rw [focusAppStep_quiet ts f w sid la h] at hmem
        exact switch_not_mem_appUpsertEvs f _ hmem
      · intro h
        rw [focusAppStep_fires ts f w sid la h]
        exact List.mem_append_right _ (List.mem_singleton.mpr rfl)
    · intro h
      rw [focusAppStep_fires ts f w sid la h]
    · intro h
      rw [focusAppStep_quiet ts f w sid la h]
      exact ⟨rfl, countSwitches_appUpsertEvs f⟩
  · intro polls
    induction polls with
    | nil =>
      intro la
      simp [runFocusApp, appStateTrace, pairChanges, countSwitches]
    | cons p rest ih =>
      intro la
      obtain ⟨ts, f, w⟩ := p
      by_cases h : appSwitchFires la f
      · have e := focusAppStep_fires ts f w sid la h
        have etr : runFocusApp sid la ((ts, f, w) :: rest) =
            ((focusAppStep ts f w sid la).1 ++
              (runFocusApp sid (focusAppStep ts f w sid la).2 rest).1,
             (runFocusApp sid (focusAppStep ts f w sid la).2 rest).2) := rfl
        rw [etr, e]
        obtain ⟨t, ht⟩ := appStateTrace_cons_shape sid
          (⟨some f.app_name, some f.bundle_id, f.pid⟩ : LastApp) rest
        have est : appStateTrace sid la ((ts, f, w) :: rest) =
            la :: appStateTrace sid (focusAppStep ts f w sid la).2 rest := rfl
        rw [est, e]
        simp only [countSwitches_append, countSwitches_appUpsertEvs]
        rw [ht, pairChanges]
        have hne : ¬ ((la.name, la.bundle) =
            ((⟨some f.app_name, some f.bundle_id, f.pid⟩ : LastApp).name,
             (⟨some f.app_name, some f.bundle_id, f.pid⟩ : LastApp).bundle)) := by
          intro heq
          obtain ⟨h1, h2⟩ := Prod.mk.injEq .. ▸ heq
          rcases h.2 with h3 | h3
          · exact h3 (by simp_all)
          · exact h3 (by simp_all)
        rw [if_neg hne]
        have := ih (⟨some f.app_name, some f.bundle_id, f.pid⟩ : LastApp)
        rw [ht] at this
        have hone : countSwitches [DBEvent.switch ⟨ts, "app", la.bundle, la.pid, none, none,
            some f.bundle_id, f.pid, w.map Win.window_num, w.map Win.title, sid⟩] = 1 := rfl
        omega
      · have e := focusAppStep_quiet ts f w sid la h
        have etr : runFocusApp sid la ((ts, f, w) :: rest) =
            ((focusAppStep ts f w sid la).1 ++
              (runFocusApp sid (focusAppStep ts f w sid la).2 rest).1,
             (runFocusApp sid (focusAppStep ts f w sid la).2 rest).2) := rfl
        rw [etr, e]
        obtain ⟨t, ht⟩ := appStateTrace_cons_shape sid la rest
        have est : appStateTrace sid la ((ts, f, w) :: rest) =
            la :: appStateTrace sid (focusAppStep ts f w sid la).2 rest := rfl
        rw [est, e]
        simp only [countSwitches_append, countSwitches_appUpsertEvs]
        rw [ht, pairChanges, if_pos rfl]
        have := ih la
        rw [ht] at this
        omega

/-- C4 witness: the spec's scenario `[A, A, B, B, A]` — exactly two
app-switch events for the two strict state changes (plus the initial
transition out of the empty state makes three in total from a fresh
collector), here checked concretely: polls `A A B B A` from the empty
state yield 3 switches and the per-step characterisation holds at `A`
against the empty state. -/
theorem app_switch_iff_state_change_witness :
    (appSwitchFires LastApp.init ⟨"A", "com.a", some 1⟩ ↔
      (("A" : String) ≠ "" ∧ ("com.a" : String) ≠ "") ∧
        (some "A" ≠ LastApp.init.name ∨ some "com.a" ≠ LastApp.init.bundle)) ∧
    countSwitches (runFocusApp 1 LastApp.init
        [(1, ⟨"A", "com.a", some 1⟩, none), (2, ⟨"A", "com.a", some 1⟩, none),
         (3, ⟨"B", "com.b", some 2⟩, none), (4, ⟨"B", "com.b", some 2⟩, none),
         (5, ⟨"A", "com.a", some 1⟩, none)]).1 =
      pairChanges (appStateTrace 1 LastApp.init
        [(1, ⟨"A", "com.a", some 1⟩, none), (2, ⟨"A", "com.a", some 1⟩, none),
         (3, ⟨"B", "com.b", some 2⟩, none), (4, ⟨"B", "com.b", some 2⟩, none),
         (5, ⟨"A", "com.a", some 1⟩, none)]) ∧
    countSwitches (runFocusApp 1 LastApp.init
        [(1, ⟨"A", "com.a", some 1⟩, none), (2, ⟨"A", "com.a", some 1⟩, none),
         (3, ⟨"B", "com.b", some 2⟩, none), (4, ⟨"B", "com.b", some 2⟩, none),
         (5, ⟨"A", "com.a", some 1⟩, none)]).1 = 3 := by
  obtain ⟨h1, h2⟩ := app_switch_iff_state_change 1
  exact ⟨(h1 1 ⟨"A", "com.a", some 1⟩ none LastApp.init).1, h2 _ LastApp.init, by decide⟩

theorem upsert_fact_fields (now : ℚ) (s : Store) (b n : String) :
    (upsertApplication now s b n).pointer_events = s.pointer_events ∧
    (upsertApplication now s b n).key_events = s.key_events ∧
    (upsertApplication now s b n).switches = s.switches := by
  unfold upsertApplication
  split <;> exact ⟨rfl, rfl, rfl⟩

theorem hasAppRow_upsert_mono (now : ℚ) (s : Store) (b n c : String)
    (h : s.hasAppRow c) : (upsertApplication now s b n).hasAppRow c := by
  obtain ⟨r, hr, hrb⟩ := h
  by_cases hex : ∃ x ∈ s.applications, x.bundle_id = b
  · refine ⟨if r.bundle_id = b then { r with app_name := n } else r, ?_, ?_⟩
    · rw [upsert_apps_of_mem now s b n hex]
      exact List.mem_map.mpr ⟨r, hr, rfl⟩
    · split <;> exact hrb
  · refine ⟨r, ?_, hrb⟩
    rw [upsert_apps_of_not_mem now s b n (fun x hx hxb => hex ⟨x, hx, hxb⟩)]
    exact List.mem_append_left _ hr

theorem hasAppRow_upsert_self (now : ℚ) (s : Store) (b n : String) :
    (upsertApplication now s b n).hasAppRow b := by
  by_cases hex : ∃ x ∈ s.applications, x.bundle_id = b
  · obtain ⟨r, hr, hrb⟩ := hex
    refine ⟨if r.bundle_id = b then { r with app_name := n } else r, ?_, ?_⟩
    · rw [upsert_apps_of_mem now s b n ⟨r, hr, hrb⟩]
      exact List.mem_map.mpr ⟨r, hr, rfl⟩
    · rw [if_pos hrb]
      exact hrb
  · refine ⟨⟨b, n, now⟩, ?_, rfl⟩
    rw [upsert_apps_of_not_mem now s b n (fun x hx hxb => hex ⟨x, hx, hxb⟩)]
    exact List.mem_append_right _ (List.mem_singleton.mpr rfl)

theorem appliedEvent_mono (now : ℚ) (s : Store) (ev e : DBEvent)
    (h : s.appliedEvent e) : (applyEvent now s ev).appliedEvent e := by
  cases ev with
  | pointer p =>
    cases e with
    | pointer q => exact List.mem_append_left _ h
    | switch q => exact h
    | key q => exact h
    | app q => exact h
    | other k => trivial
  | switch p =>
    cases e with
    | pointer q => exact h
    | switch q => exact List.mem_append_left _ h
    | key q => exact h
    | app q => exact h
    | other k => trivial
  | key p =>
    cases e with
    | pointer q => exact h
    | switch q => exact h
    | key q => exact List.mem_append_left _ h
    | app q => exact h
    | other k => trivial
  | app p =>
    cases e with
    | pointer q =>
      show q ∈ (upsertApplication now s p.bundle_id p.app_name).pointer_events
      rw [(upsert_fact_fields now s p.bundle_id p.app_name).1]
      exact h
    | switch q =>
      show q ∈ (upsertApplication now s p.bundle_id p.app_name).switches
      rw [(upsert_fact_fields now s p.bundle_id p.app_name).2.2]
      exact h
    | key q =>
      show q ∈ (upsertApplication now s p.bundle_id p.app_name).key_events
      rw [(upsert_fact_fields now s p.bundle_id p.app_name).2.1]
      exact h
    | app q => exact hasAppRow_upsert_mono now s p.bundle_id p.app_name q.bundle_id h
    | other k => trivial
  | other k => exact h

theorem appliedEvent_self (now : ℚ) (s : Store) (ev : DBEvent) :
    (applyEvent now s ev).appliedEvent ev := by
  cases ev with
  | pointer p => exact List.mem_append_right _ (List.mem_singleton.mpr rfl)
  | switch p => exact List.mem_append_right _ (List.mem_singleton.mpr rfl)
  | key p => exact List.mem_append_right _ (List.mem_singleton.mpr rfl)
  | app p => exact hasAppRow_upsert_self now s p.bundle_id p.app_name
  | other k => trivial

theorem appliedEvent_drain_mono (evs : List (ℚ × DBEvent)) :
    ∀ (s : Store) (e : DBEvent), s.appliedEvent e → (drainQueue evs s).appliedEvent e := by
  induction evs with
  | nil => intro s e h; exact h
  | cons te rest ih =>
    intro s e h
    exact ih _ _ (appliedEvent_mono te.1 s te.2 e h)

theorem drain_applies_all (evs : List (ℚ × DBEvent)) :
    ∀ (s : Store), ∀ te ∈ evs, (drainQueue evs s).appliedEvent te.2 := by
  induction evs with
  | nil =>
    intro s te h
    cases h
  | cons hd rest ih =>
    intro s te hmem
    rcases List.mem_cons.mp hmem with rfl | hmem
    · exact appliedEvent_drain_mono rest _ _ (appliedEvent_self te.1 s te.2)
    · exact ih _ te hmem

/-- C1: the drain loop's guard `while self._running or not self.q.empty()`
is false exactly when the running flag is cleared and the queue is empty;
the shutdown flush ends with an unconditional commit (the durable state
equals the connection state, which is the FIFO drain of the queue); and
after a flush that ran to completion, everything already applied stays
applied and every event that was still queued has been applied to the
durable store. -/
theorem clean_stop_flushes_all (r : Bool) (q evs : List (ℚ × DBEvent)) (db : DB) :
    (loopContinues r q = false ↔ r = false ∧ q = []) ∧
    (stopFlush evs db).durable = (stopFlush evs db).cur ∧
    (stopFlush evs db).durable = drainQueue evs db.cur ∧
    (∀ e : DBEvent, db.cur.appliedEvent e → (stopFlush evs db).durable.appliedEvent e) ∧
    (∀ te ∈ evs, (stopFlush evs db).durable.appliedEvent te.2) := by
  refine ⟨?_, rfl, rfl, ?_, ?_⟩
  · cases r <;> cases q <;> simp [loopContinues]
  · intro e h
    exact appliedEvent_drain_mono evs db.cur e h
  · intro te hte
    exact drain_applies_all evs db.cur te hte

/-- C1 witness: stopping with a pointer event and an application upsert
still queued applies both and commits them; the loop guard at that point
evaluates as the theorem states. -/
theorem clean_stop_flushes_all_witness :
    (loopContinues false [] = false ↔ false = false ∧ ([] : List (ℚ × DBEvent)) = []) ∧
    (stopFlush [(1, .pointer ⟨1, "move", 3, 4, none, "com.a", some 2, none, 1⟩),
        (2, .app ⟨"com.a", "A"⟩)] ⟨Store.empty, Store.empty⟩).durable.appliedEvent
      (.pointer ⟨1, "move", 3, 4, none, "com.a", some 2, none, 1⟩) ∧
    (stopFlush [(1, .pointer ⟨1, "move", 3, 4, none, "com.a", some 2, none, 1⟩),
        (2, .app ⟨"com.a", "A"⟩)] ⟨Store.empty, Store.empty⟩).durable.appliedEvent
      (.app ⟨"com.a", "A"⟩) := by
  obtain ⟨h1, -, -, -, h5⟩ := clean_stop_flushes_all false []
    [(1, .pointer ⟨1, "move", 3, 4, none, "com.a", some 2, none, 1⟩),
     (2, .app ⟨"com.a", "A"⟩)] ⟨Store.empty, Store.empty⟩
  refine ⟨h1, ?_, ?_⟩
  · exact h5 (1, .pointer ⟨1, "move", 3, 4, none, "com.a", some 2, none, 1⟩)
      (List.mem_cons_self _ _)
  · exact h5 (2, .app ⟨"com.a", "A"⟩)
      (List.mem_cons.mpr (Or.inr (List.mem_singleton.mpr rfl)))

theorem stepQ_inv (cap : Nat) (s : QState) (op : WOp)
    (h1 : s.consumed ++ s.buf = s.accepted) (h2 : s.buf.length ≤ cap) :
    (stepQ cap s op).consumed ++ (stepQ cap s op).buf = (stepQ cap s op).accepted ∧
    (stepQ cap s op).buf.length ≤ cap := by
  cases op with
  | put ev =>
    simp only [stepQ]
    by_cases h : s.buf.length < cap
    · rw [if_pos h]
      constructor
      · show s.consumed ++ (s.buf ++ [ev]) = s.accepted ++ [ev]
        rw [← List.append_assoc, h1]
      · show (s.buf ++ [ev]).length ≤ cap
        simp only [List.length_append, List.length_singleton]
        omega
    · rw [if_neg h]
      exact ⟨h1, h2⟩
  | take =>
    simp only [stepQ]
    cases hbuf : s.buf with
    | nil => exact ⟨h1, h2⟩
    | cons e rest =>
      constructor
      · show (s.consumed ++ [e]) ++ rest = s.accepted
        rw [List.append_assoc]
        rw [hbuf] at h1
        exact h1
      · show rest.length ≤ cap
        rw [hbuf] at h2
        simp at h2
        omega

theorem foldQ_inv (cap : Nat) (ops : List WOp) :
    ∀ s : QState, s.consumed ++ s.buf = s.accepted → s.buf.length ≤ cap →
      (ops.foldl (stepQ cap) s).consumed ++ (ops.foldl (stepQ cap) s).buf =
          (ops.foldl (stepQ cap) s).accepted ∧
        (ops.foldl (stepQ cap) s).buf.length ≤ cap := by
  induction ops with
  | nil => intro s h1 h2; exact ⟨h1, h2⟩
  | cons op rest ih =>
    intro s h1 h2
    obtain ⟨g1, g2⟩ := stepQ_inv cap s op h1 h2
    exact ih _ g1 g2

/-- C9: the intake is a bounded FIFO with one consumer: over any operation
sequence the consumed events followed by the still-buffered ones are
exactly the accepted puts in acceptance order (no accepted event is
dropped or reordered, and the consumer dequeues in FIFO order), the buffer
never exceeds capacity, a `put` against a full buffer leaves the state
unchanged (the producer blocks; nothing is lost), and once a `take` frees
a slot the blocked `put` completes, appending its event at the tail. -/
theorem intake_fifo_bounded_no_loss (cap : Nat) (ops : List WOp) :
    ((runQ cap ops).consumed ++ (runQ cap ops).buf = (runQ cap ops).accepted ∧
      (runQ cap ops).buf.length ≤ cap) ∧
    (∀ (s : QState) (ev : DBEvent), ¬ s.buf.length < cap → stepQ cap s (.put ev) = s) ∧
    (∀ (s : QState) (e : DBEvent) (rest : List DBEvent) (ev : DBEvent),
       s.buf = e :: rest → rest.length < cap →
         stepQ cap (stepQ cap s .take) (.put ev) =
           ⟨rest ++ [ev], s.consumed ++ [e], s.accepted ++ [ev]⟩) := by
  refine ⟨foldQ_inv cap ops ⟨[], [], []⟩ rfl (by simp), ?_, ?_⟩
  · intro s ev h
    simp only [stepQ]
    rw [if_neg h]
  · intro s e rest ev hbuf hlen
    have e1 : stepQ cap s .take = ⟨rest, s.consumed ++ [e], s.accepted⟩ := by
      simp only [stepQ]
      rw [hbuf]
    rw [e1]
    simp only [stepQ]
    rw [if_pos hlen]

/-- C9 witness: capacity 2; three puts (the third against a full buffer is
a no-op: the producer stays blocked), then a take and the retried put,
which completes; the FIFO equation holds for the resulting state. -/
theorem intake_fifo_bounded_no_loss_witness :
    ((runQ 2 [.put (.other "a"), .put (.other "b"), .put (.other "c"), .take,
        .put (.other "c")]).consumed ++
      (runQ 2 [.put (.other "a"), .put (.other "b"), .put (.other "c"), .take,
        .put (.other "c")]).buf =
      (runQ 2 [.put (.other "a"), .put (.other "b"), .put (.other "c"), .take,
        .put (.other "c")]).accepted) ∧
    stepQ 2 ⟨[.other "a", .other "b"], [], [.other "a", .other "b"]⟩ (.put (.other "c")) =
      ⟨[.other "a", .other "b"], [], [.other "a", .other "b"]⟩ ∧
    stepQ 2 (stepQ 2 ⟨[.other "a", .other "b"], [], [.other "a", .other "b"]⟩ .take)
        (.put (.other "c")) =
      ⟨[.other "b", .other "c"], [.other "a"], [.other "a", .other "b", .other "c"]⟩ := by
  obtain ⟨⟨h1, -⟩, h2, h3⟩ := intake_fifo_bounded_no_loss 2
    [.put (.other "a"), .put (.other "b"), .put (.other "c"), .take, .put (.other "c")]
  refine ⟨h1, ?_, ?_⟩
  · exact h2 ⟨[.other "a", .other "b"], [], [.other "a", .other "b"]⟩ (.other "c") (by decide)
  · exact h3 ⟨[.other "a", .other "b"], [], [.other "a", .other "b"]⟩ (.other "a")
      [.other "b"] (.other "c") rfl (by decide)

theorem mem_seenAfter (tr : List DBEvent) :
    ∀ (seen : List String) (b : String), b ∈ seen → b ∈ seenAfter seen tr := by
  induction tr with
  | nil => intro seen b h; exact h
  | cons ev rest ih =>
    intro seen b h
    cases ev with
    | app p => exact ih _ _ (List.mem_cons_of_mem _ h)
    | pointer p => exact ih _ _ h
    | switch p => exact ih _ _ h
    | key p => exact ih _ _ h
    | other k => exact ih _ _ h

theorem seenAfter_append (xs ys : List DBEvent) :
    ∀ seen, seenAfter seen (xs ++ ys) = seenAfter (seenAfter seen xs) ys := by
  induction xs with
  | nil => intro seen; rfl
  | cons ev rest ih =>
    intro seen
    cases ev <;> exact ih _

theorem seenAfter_cons (seen : List String) (ev : DBEvent) (l : List DBEvent) :
    seenAfter seen (ev :: l) = seenAfter (seenAfter seen [ev]) l := by
  cases ev <;> rfl

theorem goodTrace_append (xs ys : List DBEvent) :
    ∀ seen, goodTrace seen xs → goodTrace (seenAfter seen xs) ys →
      goodTrace seen (xs ++ ys) := by
  induction xs with
  | nil => intro seen _ h2; exact h2
  | cons ev rest ih =>
    intro seen h1 h2
    obtain ⟨ha, hb⟩ := h1
    rw [seenAfter_cons] at h2
    exact ⟨ha, ih _ hb h2⟩

theorem goodTrace_take (tr : List DBEvent) :
    ∀ (seen : List String) (n : Nat), goodTrace seen tr → goodTrace seen (tr.take n) := by
  induction tr with
  | nil => intro seen n h; rw [List.take_nil]; exact h
  | cons ev rest ih =>
    intro seen n h
    cases n with
    | zero => trivial
    | succ m =>
      obtain ⟨ha, hb⟩ := h
      exact ⟨ha, ih _ m hb⟩

theorem drain_dimCovered (evs : List (ℚ × DBEvent)) :
    ∀ (s : Store) (seen : List String),
      (∀ b ∈ seen, s.hasAppRow b) →
      goodTrace seen (evs.map Prod.snd) →
      s.dimCovered →
      (drainQueue evs s).dimCovered := by
  induction evs with
  | nil => intro s seen _ _ hcov; exact hcov
  | cons te rest ih =>
    intro s seen hseen hgood hcov
    obtain ⟨now, ev⟩ := te
    obtain ⟨hrefs, hrest⟩ := hgood
    have hs' : ∀ b ∈ seenAfter seen [ev], (applyEvent now s ev).hasAppRow b := by
      cases ev with
      | app p =>
        intro b hb
        rcases List.mem_cons.mp hb with rfl | hb
        · exact hasAppRow_upsert_self now s _ _
        · exact hasAppRow_upsert_mono now s _ _ _ (hseen b hb)
      | pointer p => intro b hb; exact hseen b hb
      | switch p => intro b hb; exact hseen b hb
      | key p => intro b hb; exact hseen b hb
      | other k => intro b hb; exact hseen b hb
    have hcov' : (applyEvent now s ev).dimCovered := by
      obtain ⟨hc1, hc2, hc3⟩ := hcov
      cases ev with
      | pointer p =>
        refine ⟨?_, hc2, hc3⟩
        intro q hq b hb
        rcases List.mem_append.mp hq with hq | hq
        · exact hc1 q hq b hb
        · rw [List.mem_singleton.mp hq] at hb
          exact hseen b (hrefs b hb)
      | key p =>
        refine ⟨hc1, ?_, hc3⟩
        intro q hq b hb
        rcases List.mem_append.mp hq with hq | hq
        · exact hc2 q hq b hb
        · rw [List.mem_singleton.mp hq] at hb
          exact hseen b (hrefs b hb)
      | switch p =>
        refine ⟨hc1, hc2, ?_⟩
        intro q hq b hb
        rcases List.mem_append.mp hq with hq | hq
        · exact hc3 q hq b hb
        · rw [List.mem_singleton.mp hq] at hb
          exact hseen b (hrefs b hb)
      | app p =>
        refine ⟨?_, ?_, ?_⟩
        · intro q hq b hb
          have hq' : q ∈ (upsertApplication now s p.bundle_id p.app_name).pointer_events := hq
          rw [(upsert_fact_fields now s p.bundle_id p.app_name).1] at hq'
          exact hasAppRow_upsert_mono now s _ _ _ (hc1 q hq' b hb)
        · intro q hq b hb
          have hq' : q ∈ (upsertApplication now s p.bundle_id p.app_name).key_events := hq
          rw [(upsert_fact_fields now s p.bundle_id p.app_name).2.1] at hq'
          exact hasAppRow_upsert_mono now s _ _ _ (hc2 q hq' b hb)
        · intro q hq b hb
          have hq' : q ∈ (upsertApplication now s p.bundle_id p.app_name).switches := hq
          rw [(upsert_fact_fields now s p.bundle_id p.app_name).2.2] at hq'
          exact hasAppRow_upsert_mono now s _ _ _ (hc3 q hq' b hb)
      | other k => exact ⟨hc1, hc2, hc3⟩
    have hrest' : goodTrace (seenAfter seen [ev]) (rest.map Prod.snd) := hrest
    exact ih (applyEvent now s ev) (seenAfter seen [ev]) hs' hrest' hcov'

theorem laInv_mono (la : LastApp) (seen seen' : List String)
    (hsub : ∀ b ∈ seen, b ∈ seen') (h : laInv la seen) : laInv la seen' :=
  fun b hb => ⟨(h b hb).1, hsub b (h b hb).2⟩

theorem appUpsertEvs_empty (f : Front) (h : f.bundle_id = "") : appUpsertEvs f = [] := by
  unfold appUpsertEvs
  rw [if_pos h]

theorem appUpsertEvs_single (f : Front) (h : ¬ f.bundle_id = "") :
    appUpsertEvs f = [.app ⟨f.bundle_id, appNameOr f.app_name f.bundle_id⟩] := by
  unfold appUpsertEvs
  rw [if_neg h]

theorem prologue_fact_good (f : Front) (fact : DBEvent) (seen : List String)
    (hrefs : ∀ b ∈ bundleRefs fact, b = f.bundle_id ∧ f.bundle_id ≠ "")
    (hsa : ∀ s' : List String, seenAfter s' [fact] = s') :
    goodTrace seen (appUpsertEvs f ++ [fact]) ∧
    (∀ b ∈ seen, b ∈ seenAfter seen (appUpsertEvs f ++ [fact])) := by
  by_cases hb : f.bundle_id = ""
  · rw [appUpsertEvs_empty f hb, List.nil_append]
    constructor
    · refine ⟨?_, trivial⟩
      intro b hbr
      obtain ⟨rfl, hne⟩ := hrefs b hbr
      exact absurd hb hne
    · intro b hbseen
      rw [hsa]
      exact hbseen
  · rw [appUpsertEvs_single f hb]
    constructor
    · refine ⟨fun b hbr => absurd hbr (List.not_mem_nil b), ?_, trivial⟩
      intro b hbr
      obtain ⟨rfl, -⟩ := hrefs b hbr
      exact List.mem_cons_self _ _
    · intro b hbseen
      show b ∈ seenAfter (f.bundle_id :: seen) [fact]
      rw [hsa]
      exact List.mem_cons_of_mem _ hbseen

theorem mem_optBundleRef (b : String) (o : Option String)
    (h : b ∈ optBundleRef o) : o = some b ∧ b ≠ "" := by
  cases o with
  | none => simp [optBundleRef] at h
  | some c =>
    simp only [optBundleRef] at h
    by_cases hc : c = ""
    · rw [if_pos hc] at h
      simp at h
    · rw [if_neg hc] at h
      have hbc := List.mem_singleton.mp h
      subst hbc
      exact ⟨rfl, hc⟩

theorem focusAppStep_good (ts : ℚ) (f : Front) (w : Option Win) (sid : Int)
    (la : LastApp) (seen : List String) (h : laInv la seen) :
    goodTrace seen (focusAppStep ts f w sid la).1 ∧
    laInv (focusAppStep ts f w sid la).2 (seenAfter seen (focusAppStep ts f w sid la).1) ∧
    (f.bundle_id ≠ "" → f.bundle_id ∈ seenAfter seen (focusAppStep ts f w sid la).1) ∧
    (∀ b ∈ seen, b ∈ seenAfter seen (focusAppStep ts f w sid la).1) := by
  by_cases hf : appSwitchFires la f
  · rw [focusAppStep_fires ts f w sid la hf]
    have hbne : f.bundle_id ≠ "" := hf.1.2
    rw [appUpsertEvs_single f hbne]
    have hrefs : ∀ b ∈ bundleRefs (.switch ⟨ts, "app", la.bundle, la.pid, none, none,
        some f.bundle_id, f.pid, w.map Win.window_num, w.map Win.title, sid⟩),
        b ∈ f.bundle_id :: seen := by
      intro b hbr
      rcases List.mem_append.mp hbr with hbr | hbr
      · obtain ⟨hla, hne⟩ := mem_optBundleRef b _ hbr
        obtain ⟨-, hcseen⟩ := h b hla
        exact List.mem_cons_of_mem _ hcseen
      · obtain ⟨hla, hne⟩ := mem_optBundleRef b _ hbr
        have hfb : f.bundle_id = b := Option.some_inj.mp hla
        rw [← hfb]
        exact List.mem_cons_self _ _
    refine ⟨⟨fun b hbr => absurd hbr (List.not_mem_nil b), hrefs, trivial⟩, ?_, ?_, ?_⟩
    · intro b hb
      have hb' : some f.bundle_id = some b := hb
      have hfb := Option.some_inj.mp hb'
      subst hfb
      exact ⟨hbne, List.mem_cons_self _ _⟩
    · intro _
      exact List.mem_cons_self _ _
    · intro b hbseen
      exact List.mem_cons_of_mem _ hbseen
  · rw [focusAppStep_quiet ts f w sid la hf]
    by_cases hb : f.bundle_id = ""
    · rw [appUpsertEvs_empty f hb]
      exact ⟨trivial, h, fun hne => absurd hb hne, fun b hbseen => hbseen⟩
    · rw [appUpsertEvs_single f hb]
      refine ⟨⟨fun b hbr => absurd hbr (List.not_mem_nil b), trivial⟩, ?_, ?_, ?_⟩
      · exact laInv_mono la seen _ (fun b hbs => List.mem_cons_of_mem _ hbs) h
      · intro _
        exact List.mem_cons_self _ _
      · intro b hbseen
        exact List.mem_cons_of_mem _ hbseen

theorem focusWinStep_good (ts : ℚ) (f : Front) (w : Option Win) (sid : Int)
    (la : LastApp) (lw : LastWin) (seen : List String)
    (h : laInv la seen) (hf : f.bundle_id ≠ "" → f.bundle_id ∈ seen) :
    goodTrace seen (focusWinStep ts f w sid la lw).1 ∧
    seenAfter seen (focusWinStep ts f w sid la lw).1 = seen := by
  cases w with
  | none => exact ⟨trivial, rfl⟩
  | some win =>
    simp only [focusWinStep]
    by_cases hw : winSwitchFires lw win
    · rw [if_pos hw]
      refine ⟨⟨?_, trivial⟩, rfl⟩
      intro b hbr
      rcases List.mem_append.mp hbr with hbr | hbr
      · obtain ⟨hla, hne⟩ := mem_optBundleRef b _ hbr
        obtain ⟨-, hcseen⟩ := h b hla
        exact hcseen
      · by_cases hb : f.bundle_id = ""
        · have hbr' : b ∈ optBundleRef la.bundle := by
            have e : (if f.bundle_id = "" then la.bundle else some f.bundle_id) =
                la.bundle := if_pos hb
            rw [e] at hbr
            exact hbr
          obtain ⟨hla, hne⟩ := mem_optBundleRef b _ hbr'
          obtain ⟨-, hcseen⟩ := h b hla
          exact hcseen
        · have hbr' : b ∈ optBundleRef (some f.bundle_id) := by
            have e : (if f.bundle_id = "" then la.bundle else some f.bundle_id) =
                some f.bundle_id := if_neg hb
            rw [e] at hbr
            exact hbr
          obtain ⟨hla, hne⟩ := mem_optBundleRef b _ hbr'
          have hfb : f.bundle_id = b := Option.some_inj.mp hla
          rw [← hfb]
          exact hf hb
    · rw [if_neg hw]
      exact ⟨trivial, rfl⟩

theorem pointer_refs (f : Front) (p : PointerPayload) (hp : p.bundle_id = f.bundle_id) :
    ∀ b ∈ bundleRefs (.pointer p), b = f.bundle_id ∧ f.bundle_id ≠ "" := by
  intro b hb
  simp only [bundleRefs] at hb
  rw [hp] at hb
  by_cases hfb : f.bundle_id = ""
  · rw [if_pos hfb] at hb
    simp at hb
  · rw [if_neg hfb] at hb
    exact ⟨List.mem_singleton.mp hb, hfb⟩

theorem key_refs (f : Front) (p : KeyPayload) (hp : p.bundle_id = f.bundle_id) :
    ∀ b ∈ bundleRefs (.key p), b = f.bundle_id ∧ f.bundle_id ≠ "" := by
  intro b hb
  simp only [bundleRefs] at hb
  rw [hp] at hb
  by_cases hfb : f.bundle_id = ""
  · rw [if_pos hfb] at hb
    simp at hb
  · rw [if_neg hfb] at hb
    exact ⟨List.mem_singleton.mp hb, hfb⟩

theorem onKeyRelease_trace (ts : ℚ) (k : String) (f : Front) (w : Option Win) (sid : Int) :
    (onKeyRelease ts k f w sid).trace =
      appUpsertEvs f ++
        [.key ⟨ts, "key_up", k, none, f.bundle_id, f.pid, w.map Win.window_num, sid⟩] := by
  unfold onKeyRelease CallbackOut.trace appUpsertEvs
  by_cases hb : f.bundle_id = ""
  · rw [if_pos hb, if_pos hb]
    rfl
  · rw [if_neg hb, if_neg hb]
    rfl

theorem collectorStep_good (interval : ℚ) (sid : Int) (st : CollectorState)
    (inp : CbInput) (seen : List String) (h : laInv st.lastApp seen) :
    goodTrace seen ((collectorStep interval sid st inp).1).trace ∧
    laInv ((collectorStep interval sid st inp).2).lastApp
      (seenAfter seen ((collectorStep interval sid st inp).1).trace) := by
  cases inp with
  | move now x y f w =>
    by_cases hm : now - st.lastMoveTs < interval
    · have e : collectorStep interval sid st (.move now x y f w) =
          (⟨[], []⟩, { st with lastMoveTs := st.lastMoveTs }) := by
        show ((onMove interval st.lastMoveTs now x y f w sid).1,
          { st with lastMoveTs := (onMove interval st.lastMoveTs now x y f w sid).2 }) = _
        rw [onMove_dropped x y f w sid hm]
      rw [e]
      exact ⟨trivial, h⟩
    · have e : collectorStep interval sid st (.move now x y f w) =
          (⟨[], appUpsertEvs f ++ [.pointer ⟨now, "move", x, y, none, f.bundle_id, f.pid,
              w.map Win.window_num, sid⟩]⟩, { st with lastMoveTs := now }) := by
        show ((onMove interval st.lastMoveTs now x y f w sid).1,
          { st with lastMoveTs := (onMove interval st.lastMoveTs now x y f w sid).2 }) = _
        rw [onMove_accepted x y f w sid hm]
      rw [e]
      obtain ⟨hg, hsub⟩ := prologue_fact_good f
        (.pointer ⟨now, "move", x, y, none, f.bundle_id, f.pid, w.map Win.window_num, sid⟩)
        seen (pointer_refs f _ rfl) (fun _ => rfl)
      exact ⟨hg, laInv_mono st.lastApp seen _ hsub h⟩
  | click ts x y button pressed f w =>
    obtain ⟨hg, hsub⟩ := prologue_fact_good f
      (.pointer ⟨ts, if pressed then "click_down" else "click_up", x, y, some button,
        f.bundle_id, f.pid, w.map Win.window_num, sid⟩)
      seen (pointer_refs f _ rfl) (fun _ => rfl)
    exact ⟨hg, laInv_mono st.lastApp seen _ hsub h⟩
  | scroll ts x y dx dy f w =>
    obtain ⟨hg, hsub⟩ := prologue_fact_good f
      (.pointer ⟨ts, "scroll", x, y, some (toString dx ++ "," ++ toString dy),
        f.bundle_id, f.pid, w.map Win.window_num, sid⟩)
      seen (pointer_refs f _ rfl) (fun _ => rfl)
    exact ⟨hg, laInv_mono st.lastApp seen _ hsub h⟩
  | keyPress ts k f w =>
    obtain ⟨hg, hsub⟩ := prologue_fact_good f
      (.key ⟨ts, "key_down", k, none, f.bundle_id, f.pid, w.map Win.window_num, sid⟩)
      seen (key_refs f _ rfl) (fun _ => rfl)
    exact ⟨hg, laInv_mono st.lastApp seen _ hsub h⟩
  | keyRelease ts k f w =>
    obtain ⟨hg, hsub⟩ := prologue_fact_good f
      (.key ⟨ts, "key_up", k, none, f.bundle_id, f.pid, w.map Win.window_num, sid⟩)
      seen (key_refs f _ rfl) (fun _ => rfl)
    constructor
    · show goodTrace seen (onKeyRelease ts k f w sid).trace
      rw [onKeyRelease_trace ts k f w sid]
      exact hg
    · show laInv st.lastApp (seenAfter seen (onKeyRelease ts k f w sid).trace)
      rw [onKeyRelease_trace ts k f w sid]
      exact laInv_mono st.lastApp seen _ hsub h
  | tick ts f w =>
    have e : collectorStep interval sid st (.tick ts f w) =
        (⟨[], (focusAppStep ts f w sid st.lastApp).1 ++
            (focusWinStep ts f w sid (focusAppStep ts f w sid st.lastApp).2 st.lastWin).1⟩,
          CollectorState.mk (focusAppStep ts f w sid st.lastApp).2
            (focusWinStep ts f w sid (focusAppStep ts f w sid st.lastApp).2 st.lastWin).2
            st.lastMoveTs) :=
      rfl
    rw [e]
    obtain ⟨hg1, hla1, hfb1, hsub1⟩ := focusAppStep_good ts f w sid st.lastApp seen h
    obtain ⟨hg2, hsa2⟩ := focusWinStep_good ts f w sid (focusAppStep ts f w sid st.lastApp).2
      st.lastWin (seenAfter seen (focusAppStep ts f w sid st.lastApp).1) hla1 hfb1
    constructor
    · show goodTrace seen ((focusAppStep ts f w sid st.lastApp).1 ++
        (focusWinStep ts f w sid (focusAppStep ts f w sid st.lastApp).2 st.lastWin).1)
      exact goodTrace_append _ _ seen hg1 hg2
    · show laInv (focusAppStep ts f w sid st.lastApp).2
        (seenAfter seen ((focusAppStep ts f w sid st.lastApp).1 ++
          (focusWinStep ts f w sid (focusAppStep ts f w sid st.lastApp).2 st.lastWin).1))
      rw [seenAfter_append, hsa2]
      exact hla1

theorem collectorTrace_good (interval : ℚ) (sid : Int) :
    ∀ (inputs : List CbInput) (st : CollectorState) (seen : List String),
      laInv st.lastApp seen → goodTrace seen (collectorTrace interval sid st inputs) := by
  intro inputs
  induction inputs with
  | nil => intro st seen _; trivial
  | cons inp rest ih =>
    intro st seen h
    obtain ⟨hg, hla⟩ := collectorStep_good interval sid st inp seen h
    exact goodTrace_append _ _ seen hg (ih _ _ hla)

/-- C8 (amended): restricted to non-empty bundle references.  For any run
of collector callbacks from the initial state, drain any prefix of the
produced store-bound event sequence (so in particular the prefix applied
at any commit point): in the resulting store, every pointer or key row
with a non-empty `bundle_id`, and every switch row's non-empty
`from_bundle`/`to_bundle`, has a matching `applications` row — the
dimension row is committed no later than any fact row referencing it.
Fact rows whose bundle reference is empty (the OS reported no frontmost
app) are exempt: the code writes them without any application upsert. -/
theorem fact_rows_reference_committed_apps (interval : ℚ) (sid : Int)
    (inputs : List CbInput) (evs : List (ℚ × DBEvent)) (n : Nat)
    (h : evs.map Prod.snd = collectorTrace interval sid CollectorState.init inputs) :
    (drainQueue (evs.take n) Store.empty).dimCovered := by
  have hg : goodTrace [] (evs.map Prod.snd) := by
    rw [h]
    exact collectorTrace_good interval sid inputs CollectorState.init []
      (fun b hb => Option.noConfusion hb)
  have hg' : goodTrace [] ((evs.take n).map Prod.snd) := by
    rw [List.map_take]
    exact goodTrace_take _ _ n hg
  refine drain_dimCovered (evs.take n) Store.empty []
    (fun b hb => absurd hb (List.not_mem_nil b)) hg' ?_
  refine ⟨?_, ?_, ?_⟩ <;> intro p hp <;> exact absurd hp (List.not_mem_nil p)

/-- C8 witness: a focus tick on app A followed by a click inside A — after
draining the whole trace, the covered-dimension invariant holds. -/
theorem fact_rows_reference_committed_apps_witness :
    (drainQueue ((List.map (fun ev => ((5 : ℚ), ev))
        (collectorTrace 1 1 CollectorState.init
          [.tick 1 ⟨"A", "com.a", some 2⟩ none,
           .click 2 3 4 "Button.left" true ⟨"A", "com.a", some 2⟩ none])).take 5)
      Store.empty).dimCovered := by
  have h := fact_rows_reference_committed_apps 1 1
    [.tick 1 ⟨"A", "com.a", some 2⟩ none,
     .click 2 3 4 "Button.left" true ⟨"A", "com.a", some 2⟩ none]
    (List.map (fun ev => ((5 : ℚ), ev))
      (collectorTrace 1 1 CollectorState.init
        [.tick 1 ⟨"A", "com.a", some 2⟩ none,
         .click 2 3 4 "Button.left" true ⟨"A", "com.a", some 2⟩ none])) 5
    (by rw [List.map_map]; rfl)
  exact h

/-- C8 counterexample to the unrestricted claim: a single accepted move
sample while the OS reports no frontmost app (`frontmost_app()` returns
empty strings).  The drained store then holds a pointer fact row whose
`bundle_id` (the empty string) matches no `applications` row at all — no
application upsert was enqueued for it. -/
theorem fact_row_without_app_row_counterexample :
    ∃ p ∈ (drainQueue ((collectorTrace 1 1 CollectorState.init
        [.move 1000 5 5 ⟨"", "", none⟩ none]).map (fun ev => ((1000 : ℚ), ev)))
        Store.empty).pointer_events,
      ∀ r ∈ (drainQueue ((collectorTrace 1 1 CollectorState.init
        [.move 1000 5 5 ⟨"", "", none⟩ none]).map (fun ev => ((1000 : ℚ), ev)))
        Store.empty).applications, r.bundle_id ≠ p.bundle_id := by
  have hacc : ¬ ((1000 : ℚ) - 0 < 1) := by norm_num
  have e0 : onMove 1 0 1000 5 5 ⟨"", "", none⟩ none 1 =
      (⟨[], [.pointer ⟨1000, "move", 5, 5, none, "", none, none, 1⟩]⟩, 1000) := by
    rw [onMove_accepted 5 5 ⟨"", "", none⟩ none 1 hacc,
      appUpsertEvs_empty ⟨"", "", none⟩ rfl]
    rfl
  have e1 : collectorTrace 1 1 CollectorState.init [.move 1000 5 5 ⟨"", "", none⟩ none] =
      [.pointer ⟨1000, "move", 5, 5, none, "", none, none, 1⟩] := by
    show ((onMove 1 0 1000 5 5 ⟨"", "", none⟩ none 1).1).trace ++
        collectorTrace 1 1 ⟨CollectorState.init.lastApp, CollectorState.init.lastWin,
          (onMove 1 0 1000 5 5 ⟨"", "", none⟩ none 1).2⟩ [] = _
    rw [e0]
    rfl
  rw [e1]
  refine ⟨⟨1000, "move", 5, 5, none, "", none, none, 1⟩, ?_, ?_⟩
  · show PointerPayload.mk 1000 "move" 5 5 none "" none none 1 ∈
      [PointerPayload.mk 1000 "move" 5 5 none "" none none 1]
    exact List.mem_singleton.mpr rfl
  · intro r hr
    exact absurd hr (List.not_mem_nil r)

end Mousetrace
